import Mathlib

/-!
Verification of the bitbake cooker core (`lib/bb/cooker.py`) against its
natural-language specification.  Each Python function relevant to the
claims is shallowly embedded as a Lean definition translated from the
source, and the claims are settled as theorems about those definitions.
-/

set_option maxRecDepth 8000

namespace Cooker

/-! ## Layer priority resolution (`BBCooker.handleCollections`)

`handleCollections` keeps the per-collection priorities in a Python dict
`collection_priorities` whose values are either `None` (no explicit
`BBFILE_PRIORITY_<c>`) or the parsed integer.  We embed the dict as an
association list from collection names to `Option Int`; a lookup that
misses entirely models a Python `KeyError`. -/

/-- The `collection_priorities` dict: name to (`None` or an int). -/
abbrev PrioMap := List (String × Option Int)

/-- Dict lookup. `none` models a `KeyError`; `some none` is a present
key whose value is Python `None`. -/
def pmLookup : PrioMap → String → Option (Option Int)
  | [], _ => none
  | (k, v) :: rest, c => if k = c then some v else pmLookup rest c

/-- Dict assignment `collection_priorities[c] = n` (the key is always
present when the source performs the assignment). -/
def pmUpdate : PrioMap → String → Int → PrioMap
  | [], _, _ => []
  | (k, v) :: rest, c, n =>
    if k = c then (k, some n) :: rest else (k, v) :: pmUpdate rest c n

/-- Python truthiness test `not collection_priorities[collection]`:
true for `None` and for `0`. -/
def pyFalsy : Option Int → Bool
  | none => true
  | some v => v == 0

/-- The configuration data consumed by `handleCollections`:
`BBFILE_COLLECTIONS` split into `layers`; `BBFILE_PRIORITY_<c>` parsed to
an int when the variable is set and nonempty (`explicitPrio c = none`
models an unset or empty variable); `LAYERDEPENDS_<c>` split into the
dependency name list (`layerDeps`). -/
structure LayerConf where
  layers : List String
  explicitPrio : String → Option Int
  layerDeps : String → List String

/-- The `min_prio` accumulation from the first loop of
`handleCollections`: starting from 0, every explicitly prioritised
collection updates it by `if min_prio == 0 or prio < min_prio`. -/
def computeMinPrio (conf : LayerConf) : Int :=
  conf.layers.foldl
    (fun mp c =>
      match conf.explicitPrio c with
      | some prio => if mp == 0 || prio < mp then prio else mp
      | none => mp)
    0

/-- The `collection_priorities` dict after the first loop: every
collection maps to its explicit priority or `None`. -/
def initPrioMap (conf : LayerConf) : PrioMap :=
  conf.layers.map (fun c => (c, conf.explicitPrio c))

/-- The dependency loop inside `calc_layer_priority`, abstracted over
the recursive call (`step`): resolve each dependency, then fold the
running maximum (`if depprio > max_depprio`).  A dependency whose dict
value is still `None` after the recursive call is unreachable; Python 2
would compare `None > int` as false, keeping the accumulator, which is
what we do. -/
def calcDepsWith (step : String → PrioMap → Option PrioMap) :
    List String → Int → PrioMap → Option (Int × PrioMap)
  | [], m, p => some (m, p)
  | d :: ds, m, p =>
    match step d p with
    | none => none
    | some q =>
      match pmLookup q d with
      | some (some dp) =>
          calcDepsWith step ds (if m < dp then dp else m) q
      | _ => calcDepsWith step ds m q

/-- `calc_layer_priority(collection)` (cooker.py:1000-1010).  The `fuel`
argument bounds the Python recursion depth: a result of `none` means the
computation did not complete within that depth (for a dependency cycle
this happens for every bound).  A missing dict key (Python `KeyError`)
also yields `none`; it cannot occur for enabled layers. -/
def calcLayerPriority (conf : LayerConf) (mp : Int) :
    Nat → String → PrioMap → Option PrioMap
  | 0 => fun _ _ => none
  | fuel + 1 => fun c p =>
    match pmLookup p c with
    | none => none
    | some v =>
      if pyFalsy v then
        match calcDepsWith (calcLayerPriority conf mp fuel)
            (conf.layerDeps c) mp p with
        | none => none
        | some (m, q) => some (pmUpdate q c (m + 1))
      else some p

/-- The second loop of `handleCollections` (cooker.py:1013-1014): call
`calc_layer_priority` on every collection in `BBFILE_COLLECTIONS`
order, threading the priority dict. -/
def runLayerPriorities (conf : LayerConf) (fuel : Nat) : Option PrioMap :=
  conf.layers.foldlM
    (fun p c => calcLayerPriority conf (computeMinPrio conf) fuel c p)
    (initPrioMap conf)

/-- The integer value of a dependency in the dict, when set. -/
def depsVal (p : PrioMap) (d : String) : Option Int :=
  match pmLookup p d with
  | some (some v) => some v
  | _ => none

/-- The `max_depprio` fold of `calc_layer_priority`, read off a priority
map: starting from `min_prio`, take each dependency's value when it is
set and keep the running maximum. -/
def depsMax (p : PrioMap) (ds : List String) (m : Int) : Int :=
  ds.foldl
    (fun acc d =>
      match depsVal p d with
      | some dp => if acc < dp then dp else acc
      | none => acc)
    m

/-! ### Concrete layer configurations -/

/-- Scenario S1 of the spec: layer `A` with explicit priority 5, `B`
depending on `A`, `C` depending on `B`. -/
def abcConf : LayerConf where
  layers := ["A", "B", "C"]
  explicitPrio := fun c => if c = "A" then some 5 else none
  layerDeps := fun c =>
    if c = "B" then ["A"] else if c = "C" then ["B"] else []

/-- A single layer with `BBFILE_PRIORITY_A = "0"`: an explicitly
declared priority of 0. -/
def zeroConf : LayerConf where
  layers := ["A"]
  explicitPrio := fun c => if c = "A" then some 0 else none
  layerDeps := fun _ => []

/-- A cyclic configuration: `LAYERDEPENDS_A = "B"`,
`LAYERDEPENDS_B = "A"`, no explicit priorities. -/
def cycConf : LayerConf where
  layers := ["A", "B"]
  explicitPrio := fun _ => none
  layerDeps := fun c =>
    if c = "A" then ["B"] else if c = "B" then ["A"] else []

/-! ### Dictionary and fold lemmas -/

theorem pmLookup_update_self (p : PrioMap) (c : String) (n : Int)
    (h : (pmLookup p c).isSome) :
    pmLookup (pmUpdate p c n) c = some (some n) := by
  induction p with
  | nil => simp [pmLookup] at h
  | cons kv rest ih =>
    obtain ⟨k, v⟩ := kv
    by_cases hk : k = c
    · subst hk
      simp [pmUpdate, pmLookup]
    · simp [pmUpdate, pmLookup, hk] at h ⊢
      exact ih h

theorem pmLookup_update_ne (p : PrioMap) (c : String) (n : Int) (x : String)
    (h : x ≠ c) :
    pmLookup (pmUpdate p c n) x = pmLookup p x := by
  induction p with
  | nil => rfl
  | cons kv rest ih =>
    obtain ⟨k, v⟩ := kv
    by_cases hk : k = c
    · subst hk
      have hkx : k ≠ x := fun he => h he.symm
      simp [pmUpdate, pmLookup, hkx]
    · by_cases hx : k = x
      · subst hx
        simp [pmUpdate, pmLookup, hk]
      · simp [pmUpdate, pmLookup, hk, hx]
        exact ih

theorem pmUpdate_isSome (p : PrioMap) (c : String) (n : Int) (x : String) :
    (pmLookup (pmUpdate p c n) x).isSome = (pmLookup p x).isSome := by
  by_cases hx : x = c
  · subst hx
    induction p with
    | nil => rfl
    | cons kv rest ih =>
      obtain ⟨k, v⟩ := kv
      by_cases hk : k = x
      · subst hk
        simp [pmUpdate, pmLookup]
      · simp [pmUpdate, pmLookup, hk]
        exact ih
  · rw [pmLookup_update_ne _ _ _ _ hx]

theorem depsMax_congr (q q2 : PrioMap) (ds : List String)
    (h : ∀ d ∈ ds, pmLookup q2 d = pmLookup q d) :
    ∀ m : Int, depsMax q2 ds m = depsMax q ds m := by
  induction ds with
  | nil => intro m; rfl
  | cons d ds ih =>
    intro m
    have hd : depsVal q2 d = depsVal q d := by
      unfold depsVal
      rw [h d (List.mem_cons_self d ds)]
    show depsMax q2 (d :: ds) m = depsMax q (d :: ds) m
    unfold depsMax
    simp only [List.foldl_cons]
    rw [hd]
    exact ih (fun d2 hd2 => h d2 (List.mem_cons_of_mem d hd2)) _

theorem le_depsMax (q : PrioMap) (ds : List String) :
    ∀ m : Int, m ≤ depsMax q ds m := by
  induction ds with
  | nil => intro m; exact le_refl m
  | cons d ds ih =>
    intro m
    show m ≤ depsMax q (d :: ds) m
    unfold depsMax
    simp only [List.foldl_cons]
    refine le_trans ?_ (ih _)
    cases depsVal q d with
    | none => exact le_refl m
    | some dp =>
      by_cases hm : m < dp
      · simp [hm]; exact le_of_lt hm
      · simp [hm]

/-- A dependency's value never exceeds the running maximum it feeds. -/
theorem depsMax_ge_mem (q : PrioMap) (ds : List String) (d : String)
    (vd : Int) (hd : d ∈ ds) (hv : depsVal q d = some vd) :
    ∀ m : Int, vd ≤ depsMax q ds m := by
  induction ds with
  | nil => exact absurd hd (List.not_mem_nil d)
  | cons a ds ih =>
    intro m
    show vd ≤ depsMax q (a :: ds) m
    unfold depsMax
    simp only [List.foldl_cons]
    rcases List.mem_cons.mp hd with rfl | hd2
    · rw [hv]
      have hstep : vd ≤ (if m < vd then vd else m) := by
        by_cases hm : m < vd
        · simp [hm]
        · simp [hm]; omega
      calc vd ≤ (if m < vd then vd else m) := hstep
        _ ≤ depsMax q ds (if m < vd then vd else m) := le_depsMax q ds _
    · cases hda : depsVal q a with
      | none => exact ih hd2 m
      | some dp => exact ih hd2 _

/-- The key set of the dict is unchanged. -/
def keyPres (p q : PrioMap) : Prop :=
  ∀ x, (pmLookup q x).isSome = (pmLookup p x).isSome

/-- A collection whose computed priority is the falsy value 0: this can
only happen when the running maximum over its dependencies is -1, which
forces every dependency value to be nonzero (at most -1).  Such an
entry is rewritten with the same 0 whenever it is recomputed. -/
def ZeroGood (conf : LayerConf) (mp : Int) (q : PrioMap) (x : String) :
    Prop :=
  pmLookup q x = some (some 0) ∧
  depsMax q (conf.layerDeps x) mp + 1 = 0 ∧
  (∀ d ∈ conf.layerDeps x, ∃ vd : Int, vd ≠ 0 ∧
    pmLookup q d = some (some vd))

/-- A collection whose dict entry equals the recursive formula of
`calc_layer_priority`: one more than the running maximum of its
dependency priorities, started at `min_prio`, with every dependency
entry set to an integer and every zero-valued dependency itself
recursion-stable. -/
def Good (conf : LayerConf) (mp : Int) (q : PrioMap) (x : String) : Prop :=
  pmLookup q x =
    some (some (depsMax q (conf.layerDeps x) mp + 1)) ∧
  (∀ d ∈ conf.layerDeps x, ∃ vd : Int,
    pmLookup q d = some (some vd) ∧ (vd = 0 → ZeroGood conf mp q d))

/-- Entries keep their values when they are nonzero or
recursion-stable zeroes. -/
def valKeep (conf : LayerConf) (mp : Int) (p q : PrioMap) : Prop :=
  ∀ x v, pmLookup p x = some (some v) →
    (v ≠ 0 ∨ ZeroGood conf mp p x) → pmLookup q x = some (some v)

theorem valKeep_refl (conf : LayerConf) (mp : Int) (p : PrioMap) :
    valKeep conf mp p p :=
  fun _ _ h _ => h

theorem zeroGood_mono (conf : LayerConf) (mp : Int) (p q : PrioMap)
    (x : String) (hk : valKeep conf mp p q) (hz : ZeroGood conf mp p x) :
    ZeroGood conf mp q x := by
  obtain ⟨hx, hmax, hdeps⟩ := hz
  have hdq : ∀ d ∈ conf.layerDeps x, pmLookup q d = pmLookup p d := by
    intro d hd
    obtain ⟨vd, hvd, hl⟩ := hdeps d hd
    rw [hl, hk d vd hl (Or.inl hvd)]
  refine ⟨hk x 0 hx (Or.inr ⟨hx, hmax, hdeps⟩), ?_, ?_⟩
  · rw [depsMax_congr p q _ hdq]
    exact hmax
  · intro d hd
    obtain ⟨vd, hvd, hl⟩ := hdeps d hd
    exact ⟨vd, hvd, by rw [hdq d hd, hl]⟩

theorem valKeep_trans (conf : LayerConf) (mp : Int) {p q r : PrioMap}
    (h1 : valKeep conf mp p q) (h2 : valKeep conf mp q r) :
    valKeep conf mp p r := by
  intro x v hx hor
  rcases hor with hv | hz
  · exact h2 x v (h1 x v hx (Or.inl hv)) (Or.inl hv)
  · exact h2 x v (h1 x v hx (Or.inr hz))
      (Or.inr (zeroGood_mono conf mp p q x h1 hz))

/-- A `Good` entry whose value is 0 is a recursion-stable zero. -/
theorem zeroGood_of_good (conf : LayerConf) (mp : Int) (q : PrioMap)
    (x : String) (hg : Good conf mp q x)
    (h0 : pmLookup q x = some (some 0)) : ZeroGood conf mp q x := by
  obtain ⟨hx, hdeps⟩ := hg
  have hmax : depsMax q (conf.layerDeps x) mp + 1 = 0 := by
    rw [hx] at h0
    injection h0 with h0
    injection h0 with h0
  refine ⟨h0, hmax, ?_⟩
  · intro d hd
    obtain ⟨vd, hl, _⟩ := hdeps d hd
    refine ⟨vd, ?_, hl⟩
    have hge : vd ≤ depsMax q (conf.layerDeps x) mp :=
      depsMax_ge_mem q _ d vd hd (by unfold depsVal; rw [hl]) mp
    omega

theorem good_mono (conf : LayerConf) (mp : Int) (p q : PrioMap)
    (x : String) (hk : valKeep conf mp p q) (hg : Good conf mp p x) :
    Good conf mp q x := by
  obtain ⟨hx, hdeps⟩ := hg
  have hdq : ∀ d ∈ conf.layerDeps x, pmLookup q d = pmLookup p d := by
    intro d hd
    obtain ⟨vd, hl, hq0⟩ := hdeps d hd
    by_cases hv0 : vd = 0
    · subst hv0
      rw [hl, hk d 0 hl (Or.inr (hq0 rfl))]
    · rw [hl, hk d vd hl (Or.inl hv0)]
  have hxq : pmLookup q x =
      some (some (depsMax p (conf.layerDeps x) mp + 1)) := by
    by_cases h0 : depsMax p (conf.layerDeps x) mp + 1 = 0
    · refine hk x _ hx (Or.inr ?_)
      exact zeroGood_of_good conf mp p x ⟨hx, hdeps⟩ (by rw [hx, h0])
    · exact hk x _ hx (Or.inl h0)
  refine ⟨by rw [hxq, depsMax_congr p q _ hdq], ?_⟩
  intro d hd
  obtain ⟨vd, hl, hq0⟩ := hdeps d hd
  refine ⟨vd, by rw [hdq d hd, hl], ?_⟩
  intro hv0
  exact zeroGood_mono conf mp p q d hk (hq0 hv0)


theorem zeroGood_update (conf : LayerConf) (mp : Int) (q0 : PrioMap)
    (c x : String) (w : Int) (hxc : x ≠ c) (v : Option Int)
    (hcf : pmLookup q0 c = some v) (hfal : pyFalsy v = true)
    (hz : ZeroGood conf mp q0 x) :
    ZeroGood conf mp (pmUpdate q0 c w) x := by
  obtain ⟨hx, hmax, hdeps⟩ := hz
  have hdc : ∀ d ∈ conf.layerDeps x, d ≠ c := by
    intro d hd he
    obtain ⟨vd, hvd, hl⟩ := hdeps d hd
    rw [he, hcf] at hl
    injection hl with hl
    subst hl
    have hv0 : vd = 0 := by simpa [pyFalsy] using hfal
    exact hvd hv0
  have hdq : ∀ d ∈ conf.layerDeps x,
      pmLookup (pmUpdate q0 c w) d = pmLookup q0 d :=
    fun d hd => pmLookup_update_ne _ _ _ _ (hdc d hd)
  refine ⟨?_, ?_, ?_⟩
  · rw [pmLookup_update_ne _ _ _ _ hxc]
    exact hx
  · rw [depsMax_congr q0 _ _ hdq]
    exact hmax
  · intro d hd
    obtain ⟨vd, hvd, hl⟩ := hdeps d hd
    exact ⟨vd, hvd, by rw [hdq d hd, hl]⟩

theorem zeroGood_update_self (conf : LayerConf) (mp : Int) (q0 : PrioMap)
    (c : String) (hcc : ∀ d ∈ conf.layerDeps c, d ≠ c)
    (hz : ZeroGood conf mp q0 c) :
    ZeroGood conf mp (pmUpdate q0 c 0) c := by
  obtain ⟨hcv, hmax, hdeps⟩ := hz
  have hdq : ∀ d ∈ conf.layerDeps c,
      pmLookup (pmUpdate q0 c 0) d = pmLookup q0 d :=
    fun d hd => pmLookup_update_ne _ _ _ _ (hcc d hd)
  refine ⟨pmLookup_update_self _ _ _ (by rw [hcv]; rfl), ?_, ?_⟩
  · rw [depsMax_congr q0 _ _ hdq]
    exact hmax
  · intro d hd
    obtain ⟨vd, hvd, hl⟩ := hdeps d hd
    exact ⟨vd, hvd, by rw [hdq d hd, hl]⟩

theorem good_update (conf : LayerConf) (mp : Int) (q0 : PrioMap)
    (c : String) (w : Int) (x : String) (hxc : x ≠ c) (v : Option Int)
    (hcf : pmLookup q0 c = some v) (hfal : pyFalsy v = true)
    (hwz : ZeroGood conf mp q0 c → w = 0)
    (hcc : ∀ d ∈ conf.layerDeps c, d ≠ c)
    (hg : Good conf mp q0 x) : Good conf mp (pmUpdate q0 c w) x := by
  obtain ⟨hx, hdeps⟩ := hg
  have hdq : ∀ d ∈ conf.layerDeps x,
      pmLookup (pmUpdate q0 c w) d = pmLookup q0 d := by
    intro d hd
    by_cases hdc : d = c
    · subst hdc
      obtain ⟨vd, hl, hq0⟩ := hdeps d hd
      rw [hcf] at hl
      injection hl with hl
      subst hl
      have hv0 : vd = 0 := by simpa [pyFalsy] using hfal
      have hzc : ZeroGood conf mp q0 d := hq0 hv0
      have hw0 : w = 0 := hwz hzc
      subst hw0
      rw [pmLookup_update_self _ _ _ (by rw [hcf]; rfl), hcf, hv0]
    · exact pmLookup_update_ne _ _ _ _ hdc
  refine ⟨?_, ?_⟩
  · rw [pmLookup_update_ne _ _ _ _ hxc, hx,
      depsMax_congr q0 _ _ hdq]
  · intro d hd
    obtain ⟨vd, hl, hq0⟩ := hdeps d hd
    refine ⟨vd, by rw [hdq d hd, hl], ?_⟩
    intro hv0
    subst hv0
    have hz := hq0 rfl
    by_cases hdc : d = c
    · subst hdc
      have hw0 : w = 0 := hwz hz
      subst hw0
      exact zeroGood_update_self conf mp q0 d hcc hz
    · exact zeroGood_update conf mp q0 c d w hdc v hcf hfal hz


/-- Postcondition of a successful `calc_layer_priority(c)` call. -/
structure StepPost (conf : LayerConf) (mp : Int) (rank : String → Nat)
    (c : String) (p q : PrioMap) : Prop where
  keys : keyPres p q
  keep : valKeep conf mp p q
  frame : ∀ x, rank c < rank x → pmLookup q x = pmLookup p x
  sets : ∃ v : Int, pmLookup q c = some (some v) ∧
    (v = 0 → ZeroGood conf mp q c)
  fresh : ∀ x, pmLookup q x ≠ pmLookup p x → Good conf mp q x

/-- Postcondition of a successful dependency loop over `ds`. -/
structure DepsPost (conf : LayerConf) (mp : Int) (rank : String → Nat)
    (ds : List String) (m : Int) (p : PrioMap) (m2 : Int) (q : PrioMap) :
    Prop where
  keys : keyPres p q
  keep : valKeep conf mp p q
  frame : ∀ x, (∀ d ∈ ds, rank d < rank x) → pmLookup q x = pmLookup p x
  sets : ∀ d ∈ ds, ∃ v : Int, pmLookup q d = some (some v) ∧
    (v = 0 → ZeroGood conf mp q d)
  fresh : ∀ x, pmLookup q x ≠ pmLookup p x → Good conf mp q x
  maxeq : m2 = depsMax q ds m

theorem depsPost_of_stepPost (conf : LayerConf) (mp : Int)
    (rank : String → Nat)
    (step : String → PrioMap → Option PrioMap)
    (hstep : ∀ c p q, step c p = some q → StepPost conf mp rank c p q) :
    ∀ ds m p m2 q, calcDepsWith step ds m p = some (m2, q) →
      DepsPost conf mp rank ds m p m2 q := by
  intro ds
  induction ds with
  | nil =>
    intro m p m2 q h
    rw [calcDepsWith] at h
    obtain ⟨rfl, rfl⟩ : m = m2 ∧ p = q := by
      constructor <;> · injection h with h2; injection h2
    exact ⟨fun _ => rfl, valKeep_refl conf mp p, fun _ _ => rfl,
      fun d hd => absurd hd (List.not_mem_nil d), fun x hx => absurd rfl hx,
      rfl⟩
  | cons d ds ih =>
    intro m p m2 q h
    rw [calcDepsWith] at h
    cases hq1 : step d p with
    | none => rw [hq1] at h; exact absurd h (by simp)
    | some q1 =>
      rw [hq1] at h
      dsimp only at h
      have hs := hstep d p q1 hq1
      obtain ⟨v, hlk, hvq⟩ := hs.sets
      rw [hlk] at h
      dsimp only at h
      have hD := ih (if m < v then v else m) q1 m2 q h
      have hkor : v ≠ 0 ∨ ZeroGood conf mp q1 d := by
        by_cases hv0 : v = 0
        · exact Or.inr (hvq hv0)
        · exact Or.inl hv0
      refine ⟨?_, ?_, ?_, ?_, ?_, ?_⟩
      · intro x; rw [hD.keys x, hs.keys x]
      · exact valKeep_trans conf mp hs.keep hD.keep
      · intro x hx
        rw [hD.frame x (fun d2 hd2 => hx d2 (List.mem_cons_of_mem d hd2)),
          hs.frame x (hx d (List.mem_cons_self d ds))]
      · intro d2 hd2
        rcases List.mem_cons.mp hd2 with rfl | hd2
        · refine ⟨v, hD.keep d2 v hlk hkor, ?_⟩
          intro hv0
          exact zeroGood_mono conf mp q1 q d2 hD.keep (hvq hv0)
        · exact hD.sets d2 hd2
      · intro x hx
        by_cases h1 : pmLookup q1 x = pmLookup p x
        · refine hD.fresh x ?_
          intro h2
          exact hx (h2.trans h1)
        · exact good_mono conf mp q1 q x hD.keep (hs.fresh x h1)
      · have hql : pmLookup q d = some (some v) := hD.keep d v hlk hkor
        have hdv : depsVal q d = some v := by unfold depsVal; rw [hql]
        rw [hD.maxeq]
        show depsMax q ds (if m < v then v else m) = depsMax q (d :: ds) m
        unfold depsMax
        simp only [List.foldl_cons]
        rw [hdv]


theorem stepPost_calc (conf : LayerConf) (mp : Int) (rank : String → Nat)
    (hrk : ∀ c d, d ∈ conf.layerDeps c → rank d < rank c) :
    ∀ fuel c p q, calcLayerPriority conf mp fuel c p = some q →
      StepPost conf mp rank c p q := by
  intro fuel
  induction fuel with
  | zero =>
    intro c p q h
    exact absurd h (by simp [calcLayerPriority])
  | succ n ih =>
    intro c p q h
    rw [calcLayerPriority] at h
    dsimp only at h
    cases hpc : pmLookup p c with
    | none =>
      rw [hpc] at h
      dsimp only at h
      exact absurd h (by simp)
    | some v =>
      rw [hpc] at h
      dsimp only at h
      by_cases hf : pyFalsy v
      · rw [if_pos hf] at h
        cases hcd : calcDepsWith (calcLayerPriority conf mp n)
            (conf.layerDeps c) mp p with
        | none =>
          rw [hcd] at h
          dsimp only at h
          exact absurd h (by simp)
        | some r =>
          obtain ⟨m2, q0⟩ := r
          rw [hcd] at h
          dsimp only at h
          injection h with h2
          subst h2
          have hD := depsPost_of_stepPost conf mp rank _ ih _ _ _ _ _ hcd
          have hdc : ∀ d ∈ conf.layerDeps c, d ≠ c := by
            intro d hd he
            have := hrk c d hd
            rw [he] at this
            exact absurd this (lt_irrefl _)
          have hcfalsy : pmLookup q0 c = some v := by
            rw [hD.frame c (fun d hd => hrk c d hd), hpc]
          have hkey : (pmLookup q0 c).isSome := by rw [hcfalsy]; rfl
          have hqc : pmLookup (pmUpdate q0 c (m2 + 1)) c =
              some (some (m2 + 1)) :=
            pmLookup_update_self q0 c (m2 + 1) hkey
          have hdqc : ∀ d ∈ conf.layerDeps c,
              pmLookup (pmUpdate q0 c (m2 + 1)) d = pmLookup q0 d :=
            fun d hd => pmLookup_update_ne _ _ _ _ (hdc d hd)
          have hmq : depsMax (pmUpdate q0 c (m2 + 1))
              (conf.layerDeps c) mp = m2 := by
            rw [depsMax_congr q0 _ _ hdqc]
            exact hD.maxeq.symm
          have hwz : ZeroGood conf mp q0 c → m2 + 1 = 0 := by
            intro hz
            rw [hD.maxeq]
            exact hz.2.1
          refine ⟨?_, ?_, ?_, ?_, ?_⟩
          · intro x
            rw [pmUpdate_isSome, hD.keys x]
          · intro x v2 hx hor
            by_cases hxc : x = c
            · subst hxc
              rw [hpc] at hx
              injection hx with hx2
              have hv20 : v2 = 0 := by
                have hf2 := hf
                rw [hx2] at hf2
                simpa [pyFalsy] using hf2
              have hzp : ZeroGood conf mp p x := by
                rcases hor with hv | hz
                · exact absurd hv20 hv
                · exact hz
              obtain ⟨hz1, hz2, hz3⟩ := hzp
              have hdp : ∀ d ∈ conf.layerDeps x,
                  pmLookup q0 d = pmLookup p d := by
                intro d hd
                obtain ⟨vd, hvd, hl⟩ := hz3 d hd
                rw [hl, hD.keep d vd hl (Or.inl hvd)]
              have hm2v : m2 = -1 := by
                rw [hD.maxeq, depsMax_congr p q0 _ hdp]
                omega
              rw [hqc, hm2v, hv20]
              norm_num
            · rw [pmLookup_update_ne _ _ _ _ hxc]
              exact hD.keep x v2 hx hor
          · intro x hx
            have hxc : x ≠ c := by
              intro he
              rw [he] at hx
              exact absurd hx (lt_irrefl _)
            rw [pmLookup_update_ne _ _ _ _ hxc]
            exact hD.frame x (fun d hd => lt_trans (hrk c d hd) hx)
          · refine ⟨m2 + 1, hqc, ?_⟩
            intro h0
            have hm2v : m2 = -1 := by omega
            refine ⟨by rw [hqc, h0], by rw [hmq]; exact h0, ?_⟩
            intro d hd
            obtain ⟨vd, hl, _⟩ := hD.sets d hd
            refine ⟨vd, ?_, by rw [hdqc d hd]; exact hl⟩
            have hge : vd ≤ depsMax q0 (conf.layerDeps c) mp :=
              depsMax_ge_mem q0 _ d vd hd (by unfold depsVal; rw [hl]) mp
            rw [← hD.maxeq, hm2v] at hge
            omega
          · intro x hne
            by_cases hxc : x = c
            · subst hxc
              refine ⟨by rw [hqc, hmq], ?_⟩
              intro d hd
              obtain ⟨vd, hl, hq0d⟩ := hD.sets d hd
              refine ⟨vd, by rw [hdqc d hd]; exact hl, ?_⟩
              intro hv0
              exact zeroGood_update conf mp q0 x d (m2 + 1) (hdc d hd)
                v hcfalsy hf (hq0d hv0)
            · have hq0x : pmLookup (pmUpdate q0 c (m2 + 1)) x =
                  pmLookup q0 x := pmLookup_update_ne _ _ _ _ hxc
              by_cases h1 : pmLookup q0 x = pmLookup p x
              · rw [hq0x, h1] at hne
                exact absurd rfl hne
              · exact good_update conf mp q0 c (m2 + 1) x hxc v
                  hcfalsy hf hwz hdc (hD.fresh x h1)
      · rw [if_neg hf] at h
        injection h with h2
        subst h2
        have hw : ∃ w : Int, w ≠ 0 ∧ v = some w := by
          cases v with
          | none => exact absurd rfl hf
          | some w =>
            refine ⟨w, ?_, rfl⟩
            intro he
            rw [he] at hf
            exact hf rfl
        obtain ⟨w, hw0, rfl⟩ := hw
        exact ⟨fun _ => rfl, valKeep_refl conf mp p, fun _ _ => rfl,
          ⟨w, hpc, fun h0 => absurd h0 hw0⟩, fun x hx => absurd rfl hx⟩


/-- Postcondition of the second `handleCollections` loop over a suffix
of the collection list. -/
structure FoldPost (conf : LayerConf) (mp : Int) (ls : List String)
    (p P : PrioMap) : Prop where
  keep : valKeep conf mp p P
  sets : ∀ c ∈ ls, ∃ v : Int, pmLookup P c = some (some v) ∧
    (v = 0 → ZeroGood conf mp P c)
  fresh : ∀ x, pmLookup P x ≠ pmLookup p x → Good conf mp P x

theorem foldPost_calc (conf : LayerConf) (mp : Int) (rank : String → Nat)
    (hrk : ∀ c d, d ∈ conf.layerDeps c → rank d < rank c)
    (fuel : Nat) :
    ∀ ls p P, ls.foldlM (fun p c => calcLayerPriority conf mp fuel c p) p =
        some P → FoldPost conf mp ls p P := by
  intro ls
  induction ls with
  | nil =>
    intro p P h
    rw [List.foldlM_nil] at h
    injection h with h2
    subst h2
    exact ⟨valKeep_refl conf mp p,
      fun c hc => absurd hc (List.not_mem_nil c),
      fun x hx => absurd rfl hx⟩
  | cons c ls ih =>
    intro p P h
    rw [List.foldlM_cons] at h
    cases hc : calcLayerPriority conf mp fuel c p with
    | none =>
      rw [hc] at h
      exact absurd h (by simp)
    | some q =>
      rw [hc] at h
      have hq : ls.foldlM (fun p c => calcLayerPriority conf mp fuel c p) q =
          some P := h
      have hs := stepPost_calc conf mp rank hrk fuel c p q hc
      have hI := ih q P hq
      refine ⟨valKeep_trans conf mp hs.keep hI.keep, ?_, ?_⟩
      · intro c2 hc2
        rcases List.mem_cons.mp hc2 with rfl | hc2
        · obtain ⟨v, hl, hvq⟩ := hs.sets
          have hkor : v ≠ 0 ∨ ZeroGood conf mp q c2 := by
            by_cases hv0 : v = 0
            · exact Or.inr (hvq hv0)
            · exact Or.inl hv0
          refine ⟨v, hI.keep c2 v hl hkor, ?_⟩
          intro hv0
          exact zeroGood_mono conf mp q P c2 hI.keep (hvq hv0)
        · exact hI.sets c2 hc2
      · intro x hx
        by_cases h1 : pmLookup q x = pmLookup p x
        · refine hI.fresh x ?_
          intro h2
          exact hx (h2.trans h1)
        · exact good_mono conf mp q P x hI.keep (hs.fresh x h1)

theorem pmLookup_map_mem (f : String → Option Int) :
    ∀ (ls : List String) (c : String), c ∈ ls →
      pmLookup (ls.map (fun x => (x, f x))) c = some (f c) := by
  intro ls
  induction ls with
  | nil => intro c hc; exact absurd hc (List.not_mem_nil c)
  | cons a ls ih =>
    intro c hc
    by_cases hac : a = c
    · subst hac
      simp [pmLookup]
    · have hc2 : c ∈ ls := by
        rcases List.mem_cons.mp hc with rfl | hc2
        · exact absurd rfl hac
        · exact hc2
      simp only [List.map_cons, pmLookup, if_neg hac]
      exact ih c hc2

/-- General characterization of the priorities computed by
`handleCollections` on an acyclic configuration (acyclicity witnessed
by a rank function). -/
theorem calcPriorities_characterization
    (conf : LayerConf) (fuel : Nat) (P : PrioMap) (rank : String → Nat)
    (hrk : ∀ c d, d ∈ conf.layerDeps c → rank d < rank c)
    (hrun : runLayerPriorities conf fuel = some P) :
    ∀ c ∈ conf.layers,
      (∀ e : Int, conf.explicitPrio c = some e → e ≠ 0 →
        pmLookup P c = some (some e)) ∧
      (pyFalsy (conf.explicitPrio c) = true →
        pmLookup P c =
          some (some (depsMax P (conf.layerDeps c)
            (computeMinPrio conf) + 1))) := by
  have hF := foldPost_calc conf (computeMinPrio conf) rank hrk fuel
    conf.layers (initPrioMap conf) P hrun
  intro c hc
  have hinit : pmLookup (initPrioMap conf) c = some (conf.explicitPrio c) :=
    pmLookup_map_mem conf.explicitPrio conf.layers c hc
  constructor
  · intro e he h0
    have hie : pmLookup (initPrioMap conf) c = some (some e) := by
      rw [hinit, he]
    exact hF.keep c e hie (Or.inl h0)
  · intro hfal
    obtain ⟨v, hPc, hq⟩ := hF.sets c hc
    by_cases hv0 : v = 0
    · have hz := hq hv0
      rw [hPc, hv0, ← hz.2.1]
    · have hneq : pmLookup P c ≠ pmLookup (initPrioMap conf) c := by
        rw [hPc, hinit]
        intro he
        injection he with he2
        cases hep : conf.explicitPrio c with
        | none =>
          rw [hep] at he2
          exact Option.noConfusion he2
        | some w =>
          rw [hep] at he2
          injection he2 with he3
          rw [hep] at hfal
          have hw : w = 0 := by
            have : (w == 0) = true := hfal
            simpa using this
          rw [hw] at he3
          exact hv0 he3
      exact (hF.fresh c hneq).1

/-- A rank function witnessing acyclicity of the S1 configuration. -/
def abcRank : String → Nat :=
  fun c => if c = "A" then 0 else if c = "B" then 1 else 2

theorem abc_rank_ok :
    ∀ c d, d ∈ abcConf.layerDeps c → abcRank d < abcRank c := by
  intro c d hd0
  have hd : d ∈ (if c = "B" then ["A"] else if c = "C" then ["B"] else []) :=
    hd0
  by_cases hb : c = "B"
  · subst hb
    rw [if_pos rfl] at hd
    simp only [List.mem_singleton] at hd
    subst hd
    decide
  · rw [if_neg hb] at hd
    by_cases hcc : c = "C"
    · subst hcc
      rw [if_pos rfl] at hd
      simp only [List.mem_singleton] at hd
      subst hd
      decide
    · rw [if_neg hcc] at hd
      exact absurd hd (List.not_mem_nil d)

theorem calcDepsWith_cons_none (step : String → PrioMap → Option PrioMap)
    (d : String) (ds : List String) (m : Int) (p : PrioMap)
    (h : step d p = none) : calcDepsWith step (d :: ds) m p = none := by
  rw [calcDepsWith, h]

/-- On the cyclic configuration, `calc_layer_priority` completes within
no recursion bound, for either layer. -/
theorem cyc_calc_none : ∀ fuel : Nat,
    calcLayerPriority cycConf 0 fuel "A" (initPrioMap cycConf) = none ∧
    calcLayerPriority cycConf 0 fuel "B" (initPrioMap cycConf) = none := by
  intro fuel
  induction fuel with
  | zero => exact ⟨rfl, rfl⟩
  | succ n ih =>
    refine ⟨?_, ?_⟩
    · have key : calcLayerPriority cycConf 0 (n + 1) "A"
          (initPrioMap cycConf) =
          (match calcDepsWith (calcLayerPriority cycConf 0 n) ["B"] 0
              (initPrioMap cycConf) with
          | none => none
          | some (m, q) => some (pmUpdate q "A" (m + 1))) := rfl
      rw [key, calcDepsWith_cons_none _ _ _ _ _ ih.2]
    · have key : calcLayerPriority cycConf 0 (n + 1) "B"
          (initPrioMap cycConf) =
          (match calcDepsWith (calcLayerPriority cycConf 0 n) ["A"] 0
              (initPrioMap cycConf) with
          | none => none
          | some (m, q) => some (pmUpdate q "B" (m + 1))) := rfl
      rw [key, calcDepsWith_cons_none _ _ _ _ _ ih.1]

/-! ### Claims C1 and C2 -/

/-- C1 (amended).  For every enabled layer of an acyclic configuration,
`handleCollections` assigns the explicitly declared `BBFILE_PRIORITY`
when it is present and nonzero (a declared priority of 0 is
Python-falsy and gets recomputed); otherwise the assigned priority is
one more than the running maximum of the dependency priorities with
the minimum explicit priority as the base.  In particular layers A
(explicit 5), B (deps A), C (deps B) receive priorities 5, 6, 7. -/
theorem c1_layer_priority_assignment :
    (∀ (conf : LayerConf) (fuel : Nat) (P : PrioMap) (rank : String → Nat),
      (∀ c d, d ∈ conf.layerDeps c → rank d < rank c) →
      runLayerPriorities conf fuel = some P →
      ∀ c ∈ conf.layers,
        (∀ e : Int, conf.explicitPrio c = some e → e ≠ 0 →
          pmLookup P c = some (some e)) ∧
        (pyFalsy (conf.explicitPrio c) = true →
          pmLookup P c =
            some (some (depsMax P (conf.layerDeps c)
              (computeMinPrio conf) + 1)))) ∧
    runLayerPriorities abcConf 10 =
      some [("A", some 5), ("B", some 6), ("C", some 7)] :=
  ⟨fun conf fuel P rank hrk hrun =>
    calcPriorities_characterization conf fuel P rank hrk hrun,
   by decide⟩

/-- Witness for C1: the general part instantiated on the S1
configuration yields the explicit priority 5 for layer A and the
computed priority 7 for layer C. -/
theorem c1_layer_priority_assignment_witness :
    pmLookup [("A", some 5), ("B", some 6), ("C", some 7)] "A" =
        some (some 5) ∧
    pmLookup [("A", some 5), ("B", some 6), ("C", some 7)] "C" =
        some (some 7) := by
  have h := c1_layer_priority_assignment.1 abcConf 10
    [("A", some 5), ("B", some 6), ("C", some 7)] abcRank abc_rank_ok
    (by decide)
  exact ⟨(h "A" (by decide)).1 5 (by decide) (by decide),
    (h "C" (by decide)).2 (by decide)⟩

/-- Counterexample to C1 as stated: layer A explicitly declares
`BBFILE_PRIORITY_A = "0"`, yet `handleCollections` assigns priority 1,
because Python treats the stored 0 as falsy and recomputes it. -/
theorem c1_explicit_zero_counterexample :
    zeroConf.explicitPrio "A" = some 0 ∧
    runLayerPriorities zeroConf 10 = some [("A", some 1)] ∧
    pmLookup [("A", some 1)] "A" ≠ some (some 0) :=
  ⟨rfl, by decide, by decide⟩

/-- C2.  On a configuration whose `LAYERDEPENDS` declare a cycle
between enabled layers A and B, `calc_layer_priority` exceeds every
recursion-depth bound without ever producing a result (the dict lookups
all succeed, so the only source of failure is the exhausted bound):
`handleCollections` does not terminate and never detects or reports the
cycle. -/
theorem c2_cyclic_layerdepends_diverges (fuel : Nat) :
    runLayerPriorities cycConf fuel = none := by
  have h := (cyc_calc_none fuel).1
  have key : runLayerPriorities cycConf fuel =
      (calcLayerPriority cycConf 0 fuel "A" (initPrioMap cycConf)).bind
        (fun p => (calcLayerPriority cycConf 0 fuel "B" p).bind
          fun q => some q) := rfl
  rw [key, h]
  rfl

/-! ## File collection (`CookerCollectFiles`)

`collect_bbfiles` is modelled from the point where the expanded,
deduplicated file list `newfiles` has been computed (the expansion
itself is filesystem I/O).  The `BBMASK` variable is either unset
(falsy), set to a string that fails to compile as a regex, or set to a
valid regex abstracted as its `search` predicate. -/

inductive BBMask
  | unset
  | invalid
  | valid (search : String → Bool)

/-- Python `str.endswith`. -/
def pyEndsWith (f s : String) : Bool :=
  s.data.isSuffixOf f.data

/-- `os.path.basename`: the part after the last slash. -/
def pyBasename (f : String) : String :=
  String.mk ((f.data.reverse.takeWhile (fun c => c ≠ '/')).reverse)

/-- Python `str.replace` on character lists: replace non-overlapping
occurrences of `pat` left to right.  `fuel` starts at the list length,
which suffices because every step consumes at least one character. -/
def replaceAllChars (pat rep : List Char) : Nat → List Char → List Char
  | _, [] => []
  | 0, cs => cs
  | n + 1, c :: rest =>
    if pat ≠ [] && pat.isPrefixOf (c :: rest) then
      rep ++ replaceAllChars pat rep n ((c :: rest).drop pat.length)
    else c :: replaceAllChars pat rep n rest

/-- Python `str.replace`. -/
def pyReplace (s pat rep : String) : String :=
  String.mk (replaceAllChars pat.data rep.data s.data.length s.data)

/-- The full result of the tail of `collect_bbfiles`: the returned
`(bbfiles, masked)` pair together with the side effects on
`self.appendlist` and `self.overlayed` (`overlayed = none` models the
attribute never being assigned). -/
structure CollectOut where
  files : List String
  masked : Nat
  appendlist : List (String × List String)
  overlayed : Option (List (String × List String))
deriving DecidableEq

/-- The classification loop of `collect_bbfiles` (cooker.py:1495-1507):
mask check first, then a split on the `.bb` / `.bbappend` suffix;
other extensions are skipped.  Returns `(bbfiles, bbappend, masked)`. -/
def splitLoop (msk : Option (String → Bool)) :
    List String → List String × List String × Nat
  | [] => ([], [], 0)
  | f :: rest =>
    let r := splitLoop msk rest
    if (match msk with | some s => s f | none => false) then
      (r.1, r.2.1, r.2.2 + 1)
    else if pyEndsWith f ".bb" then (f :: r.1, r.2.1, r.2.2)
    else if pyEndsWith f ".bbappend" then (r.1, f :: r.2.1, r.2.2)
    else r

/-- One append-index insertion (cooker.py:1510-1515): create the key if
missing, then append the path if not already present. -/
def alInsert : List (String × List String) → String → String →
    List (String × List String)
  | [], k, f => [(k, [f])]
  | (k2, fs) :: rest, k, f =>
    if k2 = k then (k2, if f ∈ fs then fs else fs ++ [f]) :: rest
    else (k2, fs) :: alInsert rest k f

/-- Build the `.bbappend` index: basename with `.bbappend` replaced by
`.bb` maps to the list of append paths. -/
def buildAppendIndex : List String → List (String × List String) →
    List (String × List String)
  | [], al => al
  | f :: rest, al =>
    buildAppendIndex rest
      (alInsert al (pyReplace (pyBasename f) ".bbappend" ".bb") f)

/-- `defaultdict(list)` append for the overlay map. -/
def ovAppend : List (String × List String) → String → String →
    List (String × List String)
  | [], k, f => [(k, [f])]
  | (k2, fs) :: rest, k, f =>
    if k2 = k then (k2, fs ++ [f]) :: rest else (k2, fs) :: ovAppend rest k f

/-- Association-list lookup for the `bbfile_seen` dict. -/
def seenLookup : List (String × String) → String → Option String
  | [], _ => none
  | (k, v) :: rest, b => if k = b then some v else seenLookup rest b

/-- Overlay detection (cooker.py:1519-1527): scan recipes in reverse,
first-seen basename wins, later entries are recorded as shadowed by the
winner. -/
def overlayScan : List String → List (String × String) →
    List (String × List String) → List (String × List String)
  | [], _, ov => ov
  | f :: rest, seen, ov =>
    let base := pyBasename f
    match seenLookup seen base with
    | none => overlayScan rest (seen ++ [(base, f)]) ov
    | some topfile => overlayScan rest seen (ovAppend ov topfile f)

/-- The tail of `collect_bbfiles` (cooker.py:1486-1529), starting from
the compilation of `BBMASK`.  An invalid mask logs a critical message
and returns `(list(newfiles), 0)` immediately, leaving the append index
untouched and `self.overlayed` unassigned; otherwise the files are
classified, the append index extended, and overlays detected. -/
def collect_bbfiles_tail (mask : BBMask) (newfiles : List String)
    (appendlist0 : List (String × List String)) : CollectOut :=
  match mask with
  | .invalid => ⟨newfiles, 0, appendlist0, none⟩
  | .unset =>
    let r := splitLoop none newfiles
    ⟨r.1, r.2.2, buildAppendIndex r.2.1 appendlist0,
      some (overlayScan r.1.reverse [] [])⟩
  | .valid s =>
    let r := splitLoop (some s) newfiles
    ⟨r.1, r.2.2, buildAppendIndex r.2.1 appendlist0,
      some (overlayScan r.1.reverse [] [])⟩

theorem splitLoop_none_masked (newfiles : List String) :
    (splitLoop none newfiles).2.2 = 0 := by
  induction newfiles with
  | nil => rfl
  | cons f rest ih =>
    show (splitLoop none (f :: rest)).2.2 = 0
    rw [splitLoop]
    by_cases hb : pyEndsWith f ".bb"
    · simp only [if_neg (Bool.false_ne_true), if_pos hb]
      exact ih
    · by_cases ha : pyEndsWith f ".bbappend"
      · simp only [if_neg (Bool.false_ne_true), if_neg hb, if_pos ha]
        exact ih
      · simp only [if_neg (Bool.false_ne_true), if_neg hb, if_neg ha]
        exact ih

/-! ### Claim C6 -/

/-- C6 (amended).  When `BBMASK` fails to compile, `collect_bbfiles`
reports it and returns the whole expanded file list unsplit with masked
count 0, leaving the append index untouched and the overlay map
unassigned.  The masked count agrees with a run with `BBMASK` unset
(both 0), but the returned list is the raw file list, not the `.bb`
split, and no append or overlay indexing happens. -/
theorem c6_invalid_bbmask :
    (∀ (newfiles : List String) (al0 : List (String × List String)),
      collect_bbfiles_tail BBMask.invalid newfiles al0 =
        ⟨newfiles, 0, al0, none⟩) ∧
    (∀ (newfiles : List String) (al0 : List (String × List String)),
      (collect_bbfiles_tail BBMask.invalid newfiles al0).masked =
        (collect_bbfiles_tail BBMask.unset newfiles al0).masked) :=
  ⟨fun _ _ => rfl,
   fun newfiles al0 => by
    show (0 : Nat) = (splitLoop none newfiles).2.2
    rw [splitLoop_none_masked]⟩

/-- Counterexample to C6 as stated: with an input list holding one
recipe and one append, the invalid-mask run returns both files unsplit
and builds no append index, while the unset-mask run returns only the
recipe and indexes the append. -/
theorem c6_invalid_bbmask_counterexample :
    collect_bbfiles_tail BBMask.invalid ["a.bb", "b.bbappend"] [] =
      ⟨["a.bb", "b.bbappend"], 0, [], none⟩ ∧
    collect_bbfiles_tail BBMask.unset ["a.bb", "b.bbappend"] [] =
      ⟨["a.bb"], 0, [("b.bb", ["b.bbappend"])], some []⟩ ∧
    (["a.bb", "b.bbappend"] : List String) ≠ ["a.bb"] :=
  ⟨by decide, by decide, by decide⟩

/-! ### Claim C8: `calc_bbfile_priority` -/

/-- One entry of `bbfile_config_priorities`: collection name, pattern
source, compiled regex (abstracted as its match predicate), priority.
These tuples are appended by `handleCollections` in
`BBFILE_COLLECTIONS` declaration order. -/
structure BBPrioEntry where
  collection : String
  pattern : String
  regexMatch : String → Bool
  pri : Int

/-- `calc_bbfile_priority` (cooker.py:1421-1428): return the priority
of the first entry whose regex matches, else 0.  (The optional
`matched` accumulator only records which regexes matched and never
affects the returned priority.) -/
def calc_bbfile_priority : List BBPrioEntry → String → Int
  | [], _ => 0
  | e :: rest, filename =>
    if e.regexMatch filename then e.pri
    else calc_bbfile_priority rest filename

/-- The S1 entries in `BBFILE_COLLECTIONS = "A B C"` order, with a file
`x.bb` matching the patterns of both B (priority 6) and C (priority 7)
but not A. -/
def s1Entries : List BBPrioEntry :=
  [⟨"A", "patA", fun _ => false, 5⟩,
   ⟨"B", "patB", fun f => f == "x.bb", 6⟩,
   ⟨"C", "patC", fun f => f == "x.bb", 7⟩]

/-- C8 (amended).  The collector assigns the priority of the first
matching entry of `bbfile_config_priorities` (declaration order), 0
when none matches; in scenario S1 a file matching both B (priority 6)
and C (priority 7) therefore resolves to 6, the first match, not the
highest. -/
theorem c8_first_match_priority :
    (∀ (prios : List BBPrioEntry) (filename : String),
      calc_bbfile_priority prios filename =
        ((prios.find? (fun e => e.regexMatch filename)).map
          (fun e => e.pri)).getD 0) ∧
    calc_bbfile_priority s1Entries "x.bb" = 6 := by
  constructor
  · intro prios filename
    induction prios with
    | nil => rfl
    | cons e rest ih =>
      rw [calc_bbfile_priority]
      by_cases he : e.regexMatch filename
      · rw [if_pos he]
        have hf : List.find? (fun e2 => e2.regexMatch filename) (e :: rest) =
            some e := by
          simp [List.find?, he]
        rw [hf]
        rfl
      · rw [if_neg he]
        have hf : List.find? (fun e2 => e2.regexMatch filename) (e :: rest) =
            List.find? (fun e2 => e2.regexMatch filename) rest := by
          simp [List.find?, he]
        rw [hf, ih]
  · rfl

/-- Counterexample to C8 as stated: in S1 the file `x.bb` matches both
B's and C's regex, the highest matching priority is 7, but the
collector assigns 6. -/
theorem c8_highest_priority_counterexample :
    (s1Entries.map (fun e => e.regexMatch "x.bb")) = [false, true, true] ∧
    calc_bbfile_priority s1Entries "x.bb" = 6 ∧
    max (6 : Int) 7 = 7 ∧ (6 : Int) ≠ 7 :=
  ⟨rfl, rfl, rfl, by decide⟩

/-! ## `BBCooker.checkPackages` (cooker.py:1325-1351)

Python lists are mutable heap objects; `checkPackages` first copies its
argument (`pkgs_to_build = pkgs_to_build[:]`) and then operates only on
the copy.  To make the absence of argument mutation expressible, lists
live in a store mapping object ids to contents: `arg` is the id of the
caller's list, `fresh` the id allocated for the copy.  The
`recipecache.ignored_dependencies` set is never assigned by the
function body, so any cell other than `fresh` holding it is covered by
the frame property. -/

/-- A heap of Python list objects. -/
def Store := Nat → List String

/-- Write one cell of the store. -/
def storeSet (s : Store) (i : Nat) (v : List String) : Store :=
  fun j => if j = i then v else s j

/-- The data read by `checkPackages`: `ASSUME_PROVIDED` split on
whitespace, and the cache's world and universe target sets (the values
`recipecache.world_target` / `universe_target` hold when iterated). -/
structure CheckEnv where
  assumeProvided : List String
  worldTarget : List String
  universeTarget : List String

/-- One alias expansion block: `if name in pkgs: pkgs.remove(name);
for t in tgt: pkgs.append(t)`.  `remove` drops the first occurrence. -/
def expandAlias (l : List String) (name : String) (tgt : List String) :
    List String :=
  if l.contains name then (l.erase name) ++ tgt else l

/-- `checkPackages`: copy the argument, raise `NothingToBuild` (`none`)
on an empty list, warn about every target found in `ASSUME_PROVIDED`
(in list order, without removing it), expand `world` then `universe`,
and return the copy.  The result is the updated store, the id of the
returned list, and the warned targets. -/
def checkPackages (env : CheckEnv) (arg fresh : Nat) (s : Store) :
    Option (Store × Nat × List String) :=
  let pkgs0 := s arg
  if pkgs0 = [] then none
  else
    let warned := pkgs0.filter (fun pkg => env.assumeProvided.contains pkg)
    let pkgs1 := expandAlias pkgs0 "world" env.worldTarget
    let pkgs2 := expandAlias pkgs1 "universe" env.universeTarget
    some (storeSet s fresh pkgs2, fresh, warned)

theorem mem_expandAlias (l tgt : List String) (name pkg : String)
    (hne : pkg ≠ name) (hml : pkg ∈ l) : pkg ∈ expandAlias l name tgt := by
  unfold expandAlias
  by_cases hc : l.contains name
  · rw [if_pos hc]
    exact List.mem_append_left _ ((List.mem_erase_of_ne hne).mpr hml)
  · rw [if_neg hc]
    exact hml

/-! ### Claim C7 -/

/-- C7 (amended).  A target that appears in `ASSUME_PROVIDED` is warned
about but remains in the returned build list (the loop only logs, it
never removes), and the store outside the freshly allocated copy — in
particular the caller's list and any cell holding the
ignored-dependencies set — is unchanged. -/
theorem c7_assume_provided_warned_not_dropped
    (env : CheckEnv) (arg fresh : Nat) (s : Store)
    (s2 : Store) (r : Nat) (w : List String) (pkg : String)
    (hrun : checkPackages env arg fresh s = some (s2, r, w))
    (hmem : pkg ∈ s arg) (hassume : pkg ∈ env.assumeProvided)
    (hw : pkg ≠ "world") (hu : pkg ≠ "universe") :
    pkg ∈ w ∧ pkg ∈ s2 r ∧ (∀ x, x ≠ fresh → s2 x = s x) := by
  unfold checkPackages at hrun
  have hne : ¬ (s arg = []) := by
    intro he
    rw [he] at hmem
    exact absurd hmem (List.not_mem_nil pkg)
  rw [if_neg hne] at hrun
  injection hrun with hrun
  have hs2 := congrArg Prod.fst hrun
  have h23 := congrArg Prod.snd hrun
  have hr := congrArg Prod.fst h23
  have hww := congrArg Prod.snd h23
  dsimp only at hs2 hr hww
  subst hs2
  subst hr
  subst hww
  refine ⟨?_, ?_, ?_⟩
  · exact List.mem_filter.mpr ⟨hmem, List.elem_eq_true_of_mem hassume⟩
  · show pkg ∈ storeSet s fresh _ fresh
    unfold storeSet
    rw [if_pos rfl]
    exact mem_expandAlias _ _ _ _ hu (mem_expandAlias _ _ _ _ hw hmem)
  · intro x hx
    show storeSet s fresh _ x = s x
    unfold storeSet
    rw [if_neg hx]

/-- The concrete input refuting C7 as stated: a single target `foo`
listed in `ASSUME_PROVIDED`. -/
def c7Env : CheckEnv := ⟨["foo"], [], []⟩

def c7Store : Store := fun _ => ["foo"]

/-- The store produced by `checkPackages` on the C7 input. -/
def c7OutStore : Store :=
  match checkPackages c7Env 0 1 c7Store with
  | some (s, _, _) => s
  | none => fun _ => []

/-- Witness for C7: on the concrete input, `foo` is warned, stays in
the returned list, and the caller's list is untouched. -/
theorem c7_assume_provided_witness :
    "foo" ∈ c7OutStore 1 ∧ c7OutStore 0 = ["foo"] := by
  have h := c7_assume_provided_warned_not_dropped c7Env 0 1 c7Store
    c7OutStore 1 ["foo"] "foo" rfl (by decide) (by decide) (by decide)
    (by decide)
  exact ⟨h.2.1, h.2.2 0 (by decide)⟩

/-- The returned list of a `checkPackages` result. -/
def cpRetList (o : Option (Store × Nat × List String)) : List String :=
  match o with
  | some (s, r, _) => s r
  | none => []

/-- The warned targets of a `checkPackages` result. -/
def cpWarned (o : Option (Store × Nat × List String)) : List String :=
  match o with
  | some (_, _, w) => w
  | none => []

/-- Counterexample to C7 as stated: the target `foo` is in
`ASSUME_PROVIDED`, is warned about, and still appears in the returned
build list. -/
theorem c7_assume_provided_counterexample :
    cpWarned (checkPackages c7Env 0 1 c7Store) = ["foo"] ∧
    cpRetList (checkPackages c7Env 0 1 c7Store) = ["foo"] ∧
    "foo" ∈ (["foo"] : List String) :=
  ⟨rfl, rfl, by decide⟩

/-! ### Claim C10 -/

/-- C10.  `checkPackages` never mutates its argument: every store cell
other than the freshly allocated copy — in particular the caller's list
object — holds the same elements in the same order after a successful
call, and also when the call raises `NothingToBuild` nothing has been
written at all. -/
theorem c10_checkPackages_arg_unchanged
    (env : CheckEnv) (arg fresh : Nat) (s : Store)
    (s2 : Store) (r : Nat) (w : List String)
    (hfr : fresh ≠ arg)
    (hrun : checkPackages env arg fresh s = some (s2, r, w)) :
    s2 arg = s arg ∧ (∀ x, x ≠ fresh → s2 x = s x) := by
  unfold checkPackages at hrun
  by_cases hne : s arg = []
  · rw [if_pos hne] at hrun
    exact absurd hrun (by simp)
  · rw [if_neg hne] at hrun
    injection hrun with hrun
    have hs2 := congrArg Prod.fst hrun
    dsimp only at hs2
    subst hs2
    have hframe : ∀ x, x ≠ fresh → storeSet s fresh
        (expandAlias (expandAlias (s arg) "world" env.worldTarget)
          "universe" env.universeTarget) x = s x := by
      intro x hx
      unfold storeSet
      rw [if_neg hx]
    exact ⟨hframe arg (fun he => hfr he.symm), hframe⟩

/-- The C10 concrete input: the caller's list contains `world`, so the
returned copy is rewritten by world expansion. -/
def c10Env : CheckEnv := ⟨[], ["w1"], []⟩

def c10Store : Store := fun _ => ["world", "x"]

def c10OutStore : Store :=
  match checkPackages c10Env 0 1 c10Store with
  | some (s, _, _) => s
  | none => fun _ => []

/-- Witness for C10: world expansion rewrites the returned copy to
`[x, w1]`, yet the caller's list still reads `[world, x]`. -/
theorem c10_checkPackages_arg_unchanged_witness :
    c10OutStore 1 = ["x", "w1"] ∧ c10OutStore 0 = ["world", "x"] := by
  have h := c10_checkPackages_arg_unchanged c10Env 0 1 c10Store
    c10OutStore 1 [] (by decide) rfl
  exact ⟨rfl, h.1⟩

/-! ## Parser pool (`Parser`, `CookerParser`)

The worker's `Parser.parse` and the driver's `CookerParser.parse_next`
are embedded over a state carrying the accounting counters and the
remaining result stream.  Recipe metadata is reduced to what the claims
observe: one entry per virtual variant with the `skipped` flag of
`info_array[0]`. -/

/-- One `(virtual_fn, info_array)` pair, reduced to the observed
fields. -/
structure VirtualEntry where
  virtualfn : String
  skippedFlag : Bool
deriving DecidableEq

/-- The behaviour of `bb.cache.Cache.parse` inside a worker: it either
returns the info list, raises an `Exception`, or raises a
`BaseException` that is not an `Exception` (e.g. `SystemExit`). -/
inductive ParseAttempt
  | ok (infos : List VirtualEntry)
  | raiseExc (msg : String)
  | raiseBase (msg : String)

/-- The value a worker publishes on the results channel: a success, an
exception with the `recipe` attribute attached, or a
`ParsingFailure(realexception, recipe)`. -/
inductive ParseResultVal
  | success (infos : List VirtualEntry)
  | failureExc (msg : String) (recipe : String)
  | failureBase (msg : String) (recipe : String)
deriving DecidableEq

/-- `Parser.parse` (cooker.py:1673-1688): always returns a
`(True, value)` pair; an `Exception` gets `exc.recipe = filename`
attached, any other `BaseException` is wrapped in
`ParsingFailure(exc, filename)`.  No exception escapes. -/
def parserParse (filename : String) (attempt : ParseAttempt) :
    Bool × ParseResultVal :=
  match attempt with
  | .ok infos => (true, .success infos)
  | .raiseExc m => (true, .failureExc m filename)
  | .raiseBase m => (true, .failureBase m filename)

/-- The recipe name carried by a failure value. -/
def recipeOf : ParseResultVal → Option String
  | .success _ => none
  | .failureExc _ r => some r
  | .failureBase _ r => some r

def isFailureVal : ParseResultVal → Bool
  | .success _ => false
  | .failureExc _ _ => true
  | .failureBase _ _ => true

/-- The exception classes `parse_next` handles when the result
generator re-raises a worker failure; every one of them is treated the
same way (count one error, log, `shutdown(clean=False)`, return
`False`). -/
inductive FailKind
  | bbHandled
  | parsingFailure
  | parseError
  | expansionError
  | syntaxError
  | otherExc
deriving DecidableEq

/-- One step of the driver's result stream `self.results`: either a
yielded `(parsed, result)` pair or a re-raised worker failure. -/
inductive StreamItem
  | yielded (parsed : Bool) (result : List VirtualEntry)
  | raised (kind : FailKind) (recipe : String)
deriving DecidableEq

/-- The events `CookerParser` fires. -/
inductive PEvent
  | parseStarted (toparse : Nat)
  | parseProgress (parsed toparse : Nat)
  | parseCompleted (cached parsed skipped masked virtuals errors
      total : Nat)
deriving DecidableEq

/-- The `CookerParser` accounting state: counters, progress chunk,
remaining result stream, shutdown bookkeeping, fired events. -/
structure ParserSt where
  current : Nat
  parsed : Nat
  cached : Nat
  error : Nat
  skipped : Nat
  virtuals : Nat
  toparse : Nat
  total : Nat
  masked : Nat
  progressChunk : Nat
  results : List StreamItem
  haveshutdown : Bool
  shutdownClean : Option Bool
  events : List PEvent
deriving DecidableEq

/-- `CookerParser.shutdown` (cooker.py:1749-1787): a no-op when nothing
needed parsing or when already shut down; otherwise it records the
shutdown, and a clean shutdown fires the `ParseCompleted` event. -/
def parserShutdown (st : ParserSt) (clean : Bool) (_force : Bool) :
    ParserSt :=
  if st.toparse = 0 then st
  else if st.haveshutdown then st
  else
    { st with
      haveshutdown := true
      shutdownClean := some clean
      events :=
        if clean then
          st.events ++ [PEvent.parseCompleted st.cached st.parsed
            st.skipped st.masked st.virtuals st.error st.total]
        else st.events }

/-- `CookerParser.parse_next` (cooker.py:1810-1874).  Stream end
(`StopIteration`) triggers a clean shutdown and returns `False`; a
re-raised worker failure counts one error, triggers
`shutdown(clean=False)` and returns `False`; a yielded pair updates the
counters, fires `ParseProgress` after every `progress_chunk` freshly
parsed files, counts skipped variants, and returns `True`. -/
def parse_next (st : ParserSt) : Bool × ParserSt :=
  match st.results with
  | [] => (false, parserShutdown st true false)
  | StreamItem.raised _ _ :: rest =>
    (false, parserShutdown { st with error := st.error + 1, results := rest }
      false false)
  | StreamItem.yielded parsed result :: rest =>
    let st1 := { st with
      results := rest
      current := st.current + 1
      virtuals := st.virtuals + result.length }
    let st2 :=
      if parsed then
        { st1 with
          parsed := st1.parsed + 1
          events :=
            if (st1.parsed + 1) % st1.progressChunk == 0 then
              st1.events ++
                [PEvent.parseProgress (st1.parsed + 1) st1.toparse]
            else st1.events }
      else { st1 with cached := st1.cached + 1 }
    (true,
      { st2 with
        skipped :=
          st2.skipped + (result.filter (fun e => e.skippedFlag)).length })

/-- The cache partition loop of `CookerParser.__init__`
(cooker.py:1712-1719): every file whose cache entry is valid for its
appends goes to `fromcache`, the rest to `willparse`, in list order. -/
def splitFiles (appendsOf : String → List String)
    (cacheValid : String → List String → Bool) :
    List String → List String × List String
  | [] => ([], [])
  | f :: rest =>
    let r := splitFiles appendsOf cacheValid rest
    if cacheValid f (appendsOf f) then (f :: r.1, r.2)
    else (r.1, f :: r.2)

/-- The accounting part of `CookerParser.__init__` plus the
`ParseStarted` event of `start` (cooker.py:1690-1730): `total` is the
file list length, `toparse = total - len(fromcache)`,
`progress_chunk = max(toparse / 100, 1)` (Python 2 integer division).
`stream` stands for the `itertools.chain` of `load_cached()` and
`parse_generator()`. -/
def mkCookerParserSt (filelist : List String)
    (appendsOf : String → List String)
    (cacheValid : String → List String → Bool)
    (masked : Nat) (stream : List StreamItem) : ParserSt :=
  let split := splitFiles appendsOf cacheValid filelist
  let total := filelist.length
  let toparse := total - split.1.length
  { current := 0, parsed := 0, cached := 0, error := 0, skipped := 0
    virtuals := 0, toparse := toparse, total := total, masked := masked
    progressChunk := max (toparse / 100) 1
    results := stream
    haveshutdown := false, shutdownClean := none
    events := if toparse ≠ 0 then [PEvent.parseStarted toparse] else [] }

/-- The driver's result stream as built by `start`
(cooker.py:1726-1747): the cache loads (`load_cached` yields
`(not cached, infos)` per `fromcache` file, in insertion order) chained
before the worker results (one per `willparse` file, each tagged
`True` by `Parser.parse`, in worker completion order
`parsedOrder`). -/
def cookerStream (appendsOf : String → List String)
    (cacheValid : String → List String → Bool)
    (loadFlag : String → Bool)
    (filelist : List String) (parsedOrder : List String) :
    List (Bool × String) :=
  let split := splitFiles appendsOf cacheValid filelist
  split.1.map (fun f => (!(loadFlag f), f)) ++
    parsedOrder.map (fun f => (true, f))

/-! ### Claim C3 -/

/-- C3.  A worker's `Parser.parse` never lets an exception escape: every
raised exception becomes a returned result value carrying the recipe
filename.  When the driver's `parse_next` consumes such a re-raised
failure, it records exactly one error, shuts the pool down uncleanly,
and returns `False`. -/
theorem c3_worker_failure_propagation :
    (∀ (filename : String) (attempt : ParseAttempt),
      (parserParse filename attempt).1 = true ∧
      (isFailureVal (parserParse filename attempt).2 = true →
        recipeOf (parserParse filename attempt).2 = some filename)) ∧
    (∀ (st : ParserSt) (k : FailKind) (r : String)
        (rest : List StreamItem),
      st.results = StreamItem.raised k r :: rest →
      st.toparse ≠ 0 → st.haveshutdown = false →
      (parse_next st).1 = false ∧
      (parse_next st).2.error = st.error + 1 ∧
      (parse_next st).2.haveshutdown = true ∧
      (parse_next st).2.shutdownClean = some false) := by
  constructor
  · intro filename attempt
    cases attempt with
    | ok infos => exact ⟨rfl, fun h => absurd h (by simp [parserParse, isFailureVal])⟩
    | raiseExc m => exact ⟨rfl, fun _ => rfl⟩
    | raiseBase m => exact ⟨rfl, fun _ => rfl⟩
  · intro st k r rest hres htp hsd
    unfold parse_next
    rw [hres]
    dsimp only
    unfold parserShutdown
    dsimp only
    rw [if_neg htp, if_neg (by rw [hsd]; exact Bool.false_ne_true)]
    exact ⟨rfl, rfl, rfl, rfl⟩

/-- A concrete driver state whose stream head is a worker failure. -/
def c3St : ParserSt :=
  { current := 0, parsed := 0, cached := 0, error := 0, skipped := 0
    virtuals := 0, toparse := 1, total := 1, masked := 0
    progressChunk := 1
    results := [StreamItem.raised FailKind.parsingFailure "bad.bb"]
    haveshutdown := false, shutdownClean := none
    events := [PEvent.parseStarted 1] }

/-- Witness for C3: a worker exception on `r.bb` yields a result value
naming `r.bb`, and consuming a failure leaves the driver with one
error, shut down uncleanly, returning `False`. -/
theorem c3_worker_failure_propagation_witness :
    recipeOf (parserParse "r.bb" (ParseAttempt.raiseExc "boom")).2 =
        some "r.bb" ∧
    (parse_next c3St).1 = false ∧
    (parse_next c3St).2.error = 1 ∧
    (parse_next c3St).2.haveshutdown = true ∧
    (parse_next c3St).2.shutdownClean = some false := by
  have h1 := c3_worker_failure_propagation.1 "r.bb"
    (ParseAttempt.raiseExc "boom")
  have h2 := c3_worker_failure_propagation.2 c3St FailKind.parsingFailure
    "bad.bb" [] rfl (by decide) rfl
  exact ⟨h1.2 rfl, h2.1, h2.2.1, h2.2.2.1, h2.2.2.2⟩

/-! ### Claim C9 -/

/-- C9 (amended).  The progress chunk is `max(toparse / 100, 1)` where
`toparse = total - len(fromcache)` is the number of files that failed
cache validation, not the total number of collected files; a
`ParseProgress` event fires exactly when the freshly-parsed counter
reaches a multiple of that chunk. -/
theorem c9_progress_chunk :
    (∀ (filelist : List String) (appendsOf : String → List String)
        (cacheValid : String → List String → Bool) (masked : Nat)
        (stream : List StreamItem),
      (mkCookerParserSt filelist appendsOf cacheValid masked
          stream).toparse =
        filelist.length -
          (splitFiles appendsOf cacheValid filelist).1.length ∧
      (mkCookerParserSt filelist appendsOf cacheValid masked
          stream).progressChunk =
        max ((mkCookerParserSt filelist appendsOf cacheValid masked
          stream).toparse / 100) 1) ∧
    (∀ (st : ParserSt) (v : List VirtualEntry) (rest : List StreamItem),
      st.results = StreamItem.yielded true v :: rest →
      (parse_next st).2.parsed = st.parsed + 1 ∧
      (parse_next st).2.events =
        (if (st.parsed + 1) % st.progressChunk == 0 then
          st.events ++ [PEvent.parseProgress (st.parsed + 1) st.toparse]
        else st.events)) := by
  constructor
  · intro filelist appendsOf cacheValid masked stream
    exact ⟨rfl, rfl⟩
  · intro st v rest hres
    unfold parse_next
    rw [hres]
    dsimp only
    rw [if_pos rfl]
    exact ⟨rfl, rfl⟩

/-- A driver state one fresh parse away from a progress multiple. -/
def c9St : ParserSt :=
  { current := 0, parsed := 0, cached := 0, error := 0, skipped := 0
    virtuals := 0, toparse := 1, total := 1, masked := 0
    progressChunk := 1
    results := [StreamItem.yielded true [⟨"r.bb", false⟩]]
    haveshutdown := false, shutdownClean := none
    events := [PEvent.parseStarted 1] }

/-- Witness for C9: consuming one freshly parsed result with chunk 1
increments the counter and fires exactly one `ParseProgress` event. -/
theorem c9_progress_chunk_witness :
    (parse_next c9St).2.parsed = 1 ∧
    (parse_next c9St).2.events =
      [PEvent.parseStarted 1, PEvent.parseProgress 1 1] := by
  have h := c9_progress_chunk.2 c9St [⟨"r.bb", false⟩] [] rfl
  exact ⟨h.1, h.2⟩

/-- 200 collected files of pairwise distinct lengths; the first 100
(lengths below 100) validate against the cache, the rest must be
parsed. -/
def c9Files : List String :=
  (List.range 200).map (fun i => String.mk (List.replicate i 'a'))

def c9CacheValid : String → List String → Bool :=
  fun f _ => f.data.length < 100

/-- Counterexample to C9 as stated: with 200 collected files of which
100 are cached, the code's progress chunk is `max(100/100, 1) = 1`,
while the claim's `max(1, total/100)` would be 2. -/
theorem c9_progress_chunk_counterexample :
    (mkCookerParserSt c9Files (fun _ => []) c9CacheValid 0
      []).progressChunk = 1 ∧
    c9Files.length = 200 ∧
    max (c9Files.length / 100) 1 = 2 ∧
    (1 : Nat) ≠ 2 :=
  ⟨by decide, by decide, by decide, by decide⟩

/-! ### Claim C4 -/

theorem splitFiles_mem_left (appendsOf : String → List String)
    (cacheValid : String → List String → Bool) (l : List String)
    (f : String) :
    f ∈ (splitFiles appendsOf cacheValid l).1 ↔
      f ∈ l ∧ cacheValid f (appendsOf f) = true := by
  induction l with
  | nil => simp [splitFiles]
  | cons a rest ih =>
    rw [splitFiles]
    by_cases ha : cacheValid a (appendsOf a)
    · rw [if_pos ha]
      dsimp only
      constructor
      · intro h
        rcases List.mem_cons.mp h with rfl | h2
        · exact ⟨List.mem_cons_self _ _, ha⟩
        · obtain ⟨h3, h4⟩ := ih.mp h2
          exact ⟨List.mem_cons_of_mem _ h3, h4⟩
      · intro ⟨h1, h2⟩
        rcases List.mem_cons.mp h1 with rfl | h3
        · exact List.mem_cons_self _ _
        · exact List.mem_cons_of_mem _ (ih.mpr ⟨h3, h2⟩)
    · rw [if_neg ha]
      dsimp only
      constructor
      · intro h
        obtain ⟨h3, h4⟩ := ih.mp h
        exact ⟨List.mem_cons_of_mem _ h3, h4⟩
      · intro ⟨h1, h2⟩
        rcases List.mem_cons.mp h1 with rfl | h3
        · exact absurd h2 ha
        · exact ih.mpr ⟨h3, h2⟩

theorem splitFiles_mem_right (appendsOf : String → List String)
    (cacheValid : String → List String → Bool) (l : List String)
    (f : String) :
    f ∈ (splitFiles appendsOf cacheValid l).2 ↔
      f ∈ l ∧ cacheValid f (appendsOf f) = false := by
  induction l with
  | nil => simp [splitFiles]
  | cons a rest ih =>
    rw [splitFiles]
    by_cases ha : cacheValid a (appendsOf a)
    · rw [if_pos ha]
      dsimp only
      constructor
      · intro h
        obtain ⟨h3, h4⟩ := ih.mp h
        exact ⟨List.mem_cons_of_mem _ h3, h4⟩
      · intro ⟨h1, h2⟩
        rcases List.mem_cons.mp h1 with rfl | h3
        · rw [ha] at h2
          exact Bool.noConfusion h2
        · exact ih.mpr ⟨h3, h2⟩
    · rw [if_neg ha]
      dsimp only
      constructor
      · intro h
        rcases List.mem_cons.mp h with rfl | h2
        · exact ⟨List.mem_cons_self _ _,
            Bool.eq_false_iff.mpr (fun he => ha he)⟩
        · obtain ⟨h3, h4⟩ := ih.mp h2
          exact ⟨List.mem_cons_of_mem _ h3, h4⟩
      · intro ⟨h1, h2⟩
        rcases List.mem_cons.mp h1 with rfl | h3
        · exact List.mem_cons_self _ _
        · exact List.mem_cons_of_mem _ (ih.mpr ⟨h3, h2⟩)

theorem splitFiles_count (appendsOf : String → List String)
    (cacheValid : String → List String → Bool) (l : List String)
    (f : String) :
    (splitFiles appendsOf cacheValid l).1.count f +
      (splitFiles appendsOf cacheValid l).2.count f = l.count f := by
  induction l with
  | nil => rfl
  | cons a rest ih =>
    rw [splitFiles]
    by_cases ha : cacheValid a (appendsOf a)
    · rw [if_pos ha]
      dsimp only
      rw [List.count_cons, List.count_cons]
      omega
    · rw [if_neg ha]
      dsimp only
      rw [List.count_cons, List.count_cons]
      omega

/-- C4.  `cacheValid` sends every collected file to exactly one of the
cached and to-parse sets, the driver's stream (the chain of
`load_cached` and the worker results, the latter being the to-parse
files in completion order) yields all cache loads first, and across the
chained stream every input file appears exactly once. -/
theorem c4_partition_and_stream
    (appendsOf : String → List String)
    (cacheValid : String → List String → Bool)
    (loadFlag : String → Bool)
    (filelist parsedOrder : List String)
    (hperm : parsedOrder.Perm (splitFiles appendsOf cacheValid filelist).2)
    (hnodup : filelist.Nodup) :
    ((cookerStream appendsOf cacheValid loadFlag filelist
        parsedOrder).map Prod.snd =
      (splitFiles appendsOf cacheValid filelist).1 ++ parsedOrder) ∧
    (∀ f ∈ filelist,
      (f ∈ (splitFiles appendsOf cacheValid filelist).1 ↔
        cacheValid f (appendsOf f) = true) ∧
      (f ∈ (splitFiles appendsOf cacheValid filelist).2 ↔
        cacheValid f (appendsOf f) = false) ∧
      ((cookerStream appendsOf cacheValid loadFlag filelist
          parsedOrder).map Prod.snd).count f = 1) := by
  have hmap : (cookerStream appendsOf cacheValid loadFlag filelist
      parsedOrder).map Prod.snd =
      (splitFiles appendsOf cacheValid filelist).1 ++ parsedOrder := by
    unfold cookerStream
    rw [List.map_append, List.map_map, List.map_map]
    have h1 : (Prod.snd ∘ fun f : String => (!loadFlag f, f)) = id := rfl
    have h2 : (Prod.snd ∘ fun f : String => (true, f)) = id := rfl
    rw [h1, h2, List.map_id, List.map_id]
  refine ⟨hmap, ?_⟩
  intro f hf
  refine ⟨?_, ?_, ?_⟩
  · rw [splitFiles_mem_left]
    exact ⟨fun h => h.2, fun h => ⟨hf, h⟩⟩
  · rw [splitFiles_mem_right]
    exact ⟨fun h => h.2, fun h => ⟨hf, h⟩⟩
  · rw [hmap, List.count_append, hperm.count_eq, splitFiles_count]
    exact List.count_eq_one_of_mem hnodup hf

/-- Witness for C4: three collected files, one cached, two parsed out
of order; the stream lists the cached file first and holds each file
once. -/
theorem c4_partition_and_stream_witness :
    ((cookerStream (fun _ => []) (fun f _ => f == "a.bb") (fun _ => true)
        ["a.bb", "b.bb", "c.bb"] ["c.bb", "b.bb"]).map Prod.snd =
      ["a.bb", "c.bb", "b.bb"]) ∧
    ((cookerStream (fun _ => []) (fun f _ => f == "a.bb") (fun _ => true)
        ["a.bb", "b.bb", "c.bb"] ["c.bb", "b.bb"]).map Prod.snd).count
      "b.bb" = 1 := by
  have h := c4_partition_and_stream (fun _ => [])
    (fun f _ => f == "a.bb") (fun _ => true)
    ["a.bb", "b.bb", "c.bb"] ["c.bb", "b.bb"] (by decide) (by decide)
  exact ⟨h.1, (h.2 "b.bb" (by decide)).2.2⟩

/-! ## Cooker state machine (`BBCooker.updateCache`)

The `state` class of cooker.py:64-65 and the `updateCache` driver entry
point.  The async command dispatcher that calls `updateCache` lives in
`bb/command.py`, which is not part of the sources; its handling of the
raised `BBHandledException` is modelled from the spec. -/

/-- `state`: `initial, parsing, running, shutdown, forceshutdown,
stopped, error = range(7)`. -/
inductive CookerState
  | initial
  | parsing
  | running
  | shutdownState
  | forceshutdown
  | stopped
  | error
deriving DecidableEq

/-- The cooker state observed by `updateCache`: the lifecycle state and
the parser. -/
structure CookerSt where
  cstate : CookerState
  parser : ParserSt
deriving DecidableEq

/-- The three ways `updateCache` returns: `True` (continue),
`None` (done), or a raised `bb.BBHandledException`. -/
inductive UCOut
  | retTrue
  | retNone
  | raisedHandled
deriving DecidableEq

/-- `BBCooker.updateCache` (cooker.py:1285-1323).  In `running` it
returns immediately; in `shutdown`/`forceshutdown` it force-shuts the
parser down and raises; outside `parsing` it performs the setup
(configuration parse, file collection, construction of a fresh
`CookerParser`, abstracted as `freshParser`) and enters `parsing`; then
one `parse_next` step: `True` keeps parsing, exhaustion with
`self.parser.error` nonzero raises, exhaustion without errors moves to
`running`. -/
def updateCache (freshParser : ParserSt) (st : CookerSt) :
    CookerSt × UCOut :=
  if st.cstate = CookerState.running then (st, UCOut.retNone)
  else if st.cstate = CookerState.shutdownState ∨
      st.cstate = CookerState.forceshutdown then
    ({ st with parser := parserShutdown st.parser false true },
      UCOut.raisedHandled)
  else
    let st1 :=
      if st.cstate ≠ CookerState.parsing then
        { st with parser := freshParser, cstate := CookerState.parsing }
      else st
    let r := parse_next st1.parser
    if r.1 then ({ st1 with parser := r.2 }, UCOut.retTrue)
    else if r.2.error ≠ 0 then
      ({ st1 with parser := r.2 }, UCOut.raisedHandled)
    else
      ({ st1 with parser := r.2, cstate := CookerState.running },
        UCOut.retNone)

/-- Modelled from the spec: the async command dispatcher
(`bb/command.py`, absent from the sources) that invokes `updateCache`
as an idle callback.  Per the spec's transition diagram — "any error in
Parsing → Error" — and "The cooker itself does not exit the process; it
signals state `Error`", a `BBHandledException` escaping `updateCache`
while the cooker is parsing sends the state machine to `error`. -/
def commandDriverStep (freshParser : ParserSt) (st : CookerSt) :
    CookerSt :=
  match updateCache freshParser st with
  | (st2, UCOut.raisedHandled) =>
    if st2.cstate = CookerState.parsing then
      { st2 with cstate := CookerState.error }
    else st2
  | (st2, _) => st2

/-! ### Claim C5 -/

/-- C5.  Whenever an error occurs while the cooker is parsing — its
`parse_next` step reports exhaustion with a nonzero error count —
`updateCache` raises `BBHandledException` instead of exiting, and the
driver step moves the state machine to `error`. -/
theorem c5_parse_error_reaches_error_state
    (freshParser : ParserSt) (st : CookerSt)
    (hst : st.cstate = CookerState.parsing)
    (h1 : (parse_next st.parser).1 = false)
    (h2 : (parse_next st.parser).2.error ≠ 0) :
    (updateCache freshParser st).2 = UCOut.raisedHandled ∧
    (updateCache freshParser st).1.cstate = CookerState.parsing ∧
    (commandDriverStep freshParser st).cstate = CookerState.error := by
  have hni : ¬ (st.cstate = CookerState.running) := by
    rw [hst]; intro h; exact CookerState.noConfusion h
  have hns : ¬ (st.cstate = CookerState.shutdownState ∨
      st.cstate = CookerState.forceshutdown) := by
    rw [hst]
    intro h
    rcases h with h | h <;> exact CookerState.noConfusion h
  have hnp : ¬ (st.cstate ≠ CookerState.parsing) := fun h => h hst
  have hkey : updateCache freshParser st =
      ({ st with parser := (parse_next st.parser).2 },
        UCOut.raisedHandled) := by
    unfold updateCache
    rw [if_neg hni, if_neg hns]
    dsimp only
    simp only [if_neg hnp]
    rw [if_neg (by rw [h1]; exact Bool.false_ne_true), if_pos h2]
  rw [hkey]
  refine ⟨rfl, hst, ?_⟩
  unfold commandDriverStep
  rw [hkey]
  dsimp only
  rw [if_pos hst]

/-- A cooker in `parsing` whose stream head is a worker failure. -/
def c5FailCooker : CookerSt :=
  ⟨CookerState.parsing,
    { c3St with results := [StreamItem.raised FailKind.parseError
        "broken.bb"] }⟩

/-- Witness for C5: with a parse failure at the head of the stream, one
driver step lands in the `error` state. -/
theorem c5_parse_error_reaches_error_state_witness :
    (commandDriverStep c3St c5FailCooker).cstate = CookerState.error := by
  have h := c5_parse_error_reaches_error_state c3St c5FailCooker rfl
    (by decide) (by decide)
  exact h.2.2

end Cooker
